import Mathlib

/-!
Verification of the flight-booking service's cheapest-route core and its
HTTP resource layer (`app.py`).  The data model follows the `Flight` and
`Passenger` records; the route solver follows the design document's
Graph Builder / Route Solver / Route Query Facade decomposition (the
solver body `Flight.find_cheapest_route` lives in `models.py`, which is
not part of the sources at hand, so it is modelled from the spec).
Costs are non-negative numeric weights, embedded as `Nat`.
-/

/-- Flight record: `id`, `flight_name`, `origin`, `destination`, `cost`,
and nullable `created_at` / `deleted_at` timestamps (embedded as option
strings).  A non-null `deleted_at` marks the flight soft-deleted. -/
structure Flight where
  id : String
  flight_name : String
  origin : String
  destination : String
  cost : Nat
  created_at : Option String
  deleted_at : Option String
deriving DecidableEq, Repr

/-- Passenger record with a nullable `deleted_at` soft-delete marker. -/
structure Passenger where
  id : String
  name : String
  email : String
  checked_in : Bool
  deleted_at : Option String
deriving DecidableEq, Repr

/-- The relational store backing the resource layer. -/
structure Store where
  flights : List Flight
  passengers : List Passenger
deriving Repr

/-- Embedding of `FlightResource.get` with no id (app.py lines 48-50):
`Flight.query.all()` — every flight row, with no `deleted_at` filter. -/
def FlightResource.listFlights (s : Store) : List Flight :=
  s.flights

/-- Embedding of `PassengerResource.get` with no id (app.py lines 119-121):
`Passenger.query.filter(Passenger.deleted_at.is_(None)).all()`. -/
def PassengerResource.listPassengers (s : Store) : List Passenger :=
  s.passengers.filter (fun p => p.deleted_at = none)

/-- Modelled from the spec: the Ledger's `listActiveFlights()` (spec section 6),
which the facade reads; it excludes soft-deleted flights, i.e. keeps exactly
the flights whose `deleted_at` is null. -/
def listActiveFlights (fs : List Flight) : List Flight :=
  fs.filter (fun f => f.deleted_at = none)

/-- Modelled from the spec: the Graph Builder (spec section 4.1).  The graph
maps an airport code to all outgoing edges of that airport, retaining every
parallel edge (no dedup). -/
def build (fs : List Flight) : String → List Flight :=
  fun u => fs.filter (fun f => f.origin = u)

/-- Best-known state of the solver: for each airport code, `none` when no
path is known yet, otherwise the best-known cumulative cost together with
the best-known edge sequence from the origin to that airport. -/
abbrev Best := String → Option (Nat × List Flight)

/-- Modelled from the spec: one edge relaxation (spec section 4.2).  With
`du`/`pu` the best-known cost and path of the edge's source, the edge `f`
updates `f.destination` only when `du + f.cost` is strictly smaller than the
existing best — on a cost-equal relaxation the existing best is kept
(first-discovered wins). -/
def relaxOne (du : Nat) (pu : List Flight) (best : Best) (f : Flight) : Best :=
  fun x =>
    if x = f.destination then
      match best f.destination with
      | none => some (du + f.cost, pu ++ [f])
      | some (dv, pv) =>
        if du + f.cost < dv then some (du + f.cost, pu ++ [f]) else some (dv, pv)
    else best x

/-- Relax every outgoing edge of a newly finalized node, in adjacency order. -/
def relaxAll (du : Nat) (pu : List Flight) (best : Best) (edges : List Flight) : Best :=
  edges.foldl (relaxOne du pu) best

/-- Pick the unvisited node with the smallest best-known cost (nodes with no
best-known cost are not candidates); on ties the earliest listed node wins.
Returns the node together with its best-known cost and path. -/
def pickMin (best : Best) : List String → Option (String × Nat × List Flight)
  | [] => none
  | u :: rest =>
    match best u with
    | none => pickMin best rest
    | some (du, pu) =>
      match pickMin best rest with
      | none => some (u, du, pu)
      | some (v, dv, pv) => if dv < du then some (v, dv, pv) else some (u, du, pu)

/-- Modelled from the spec: the Dijkstra main loop (spec section 4.2).  Each
iteration finalizes the unvisited node with the smallest best-known cost and
relaxes its outgoing edges; the loop ends when no unvisited node is
reachable.  The fuel argument bounds the iteration count; `solve` supplies
enough fuel to finalize every node. -/
def dijkstraLoop (g : String → List Flight) : Nat → List String → Best → Best
  | 0, _, best => best
  | fuel + 1, unvisited, best =>
    match pickMin best unvisited with
    | none => best
    | some (u, du, pu) =>
      dijkstraLoop g fuel (unvisited.erase u) (relaxAll du pu best (g u))

/-- The airport codes appearing in a flight list (origins and destinations;
duplicates are harmless to the solver). -/
def nodesOf (fs : List Flight) : List String :=
  fs.map (fun f => f.origin) ++ fs.map (fun f => f.destination)

/-- Initial best-known state: the origin with the empty zero-cost path,
and nothing known anywhere else. -/
def initBest (o : String) : Best :=
  fun x => if x = o then some (0, []) else none

/-- Modelled from the spec: the Route Solver (spec section 4.2) applied to a
snapshot of active flights.  A query whose origin equals its destination is
rejected as degenerate; otherwise Dijkstra runs from the origin and the
destination's final best path and cost are returned, or `none` when the
destination was never reached. -/
def solve (fs : List Flight) (origin destination : String) :
    Option (List Flight × Nat) :=
  if origin = destination then none
  else
    match
      dijkstraLoop (build fs) (nodesOf fs).length (nodesOf fs)
        (initBest origin) destination
    with
    | none => none
    | some (c, p) => some (p, c)

/-- Modelled from the spec: the Route Query Facade `find_cheapest_route`
(spec section 4.3), whose body lives in `models.py` (absent from the
sources); it reads the active-flight snapshot, builds the graph and runs
the solver, returning the ordered flight list and total cost, or `none`
(mapped to NotFound by the resource layer). -/
def Flight.find_cheapest_route (fs : List Flight) (origin destination : String) :
    Option (List Flight × Nat) :=
  solve (listActiveFlights fs) origin destination

/-- Outcome of the cheapest-route endpoint, mirroring the four response
shapes of `CheapestRouteResource.get`: 400, 404, 200 and 500. -/
inductive ApiResult where
  | validationError (message : String)
  | notFound (message : String)
  | ok (route : List Flight) (total_cost : Nat)
  | serverError (message : String)
deriving DecidableEq, Repr

/-- Python falsiness of a request argument: absent, or the empty string. -/
def isBlank : Option String → Bool
  | none => true
  | some s => s == ""

/-- Embedding of `CheapestRouteResource.get` (app.py lines 202-224).  The
Ledger snapshot that `Flight.find_cheapest_route` reads internally — and
whose access may fail — is passed as an `Except` value; a failure there is
caught by the surrounding handler and reported as a 500 server error. -/
def CheapestRouteResource.get (ledger : Except String (List Flight))
    (origin destination : Option String) : ApiResult :=
  if isBlank origin || isBlank destination then
    ApiResult.validationError "Both origin and destination are required."
  else
    match ledger with
    | Except.error e => ApiResult.serverError ("An unexpected error occurred: " ++ e)
    | Except.ok fs =>
      match Flight.find_cheapest_route fs (origin.getD "") (destination.getD "") with
      | none => ApiResult.notFound "No route found between the specified points."
      | some (route, c) => ApiResult.ok route c

/-- Contiguous chain of flights from one airport to another:
`chainB u p v` holds when `p`'s edges link end to end, the first edge leaves
`u` and the last edge arrives at `v` (the empty chain requires `u = v`). -/
def chainB : String → List Flight → String → Bool
  | u, [], v => u == v
  | u, f :: rest, v => (f.origin == u) && chainB f.destination rest v

/-- A (possibly empty) origin-to-`v` path drawn from the flight list `fs`. -/
def pathIn (fs : List Flight) (o : String) (p : List Flight) (v : String) : Prop :=
  chainB o p v = true ∧ ∀ f ∈ p, f ∈ fs

instance : ∀ fs o p v, Decidable (pathIn fs o p v) := fun _ _ _ _ =>
  inferInstanceAs (Decidable (_ ∧ _))

/-- A valid route for a query: non-empty, made of flights that are present
and active in the snapshot, contiguous from the queried origin to the
queried destination. -/
def validPath (fs : List Flight) (o d : String) (p : List Flight) : Prop :=
  p ≠ [] ∧ (∀ f ∈ p, f ∈ fs ∧ f.deleted_at = none) ∧ chainB o p d = true

instance : ∀ fs o d p, Decidable (validPath fs o d p) := fun _ _ _ _ =>
  inferInstanceAs (Decidable (_ ∧ _ ∧ _))

/-- Total cost of a route: the sum of its edge costs. -/
def routeCost (p : List Flight) : Nat :=
  (p.map (fun f => f.cost)).sum

/-! Basic lemmas about chains, paths and costs. -/

theorem chainB_nil {u v : String} : chainB u [] v = true ↔ u = v := by
  simp [chainB]

theorem chainB_concat {o v : String} {f : Flight} {q : List Flight} :
    chainB o (q ++ [f]) v = true ↔ chainB o q f.origin = true ∧ f.destination = v := by
  induction q generalizing o with
  | nil =>
    simp only [List.nil_append, chainB, Bool.and_eq_true, beq_iff_eq]
    constructor
    · exact fun h => ⟨h.1.symm, h.2⟩
    · exact fun h => ⟨h.1.symm, h.2⟩
  | cons g rest ih =>
    simp only [List.cons_append, chainB, Bool.and_eq_true, List.append_eq, ih, and_assoc]

theorem routeCost_nil : routeCost [] = 0 := rfl

theorem routeCost_concat (q : List Flight) (f : Flight) :
    routeCost (q ++ [f]) = routeCost q + f.cost := by
  simp [routeCost]

theorem pathIn_nil {fs : List Flight} {o v : String} : pathIn fs o [] v ↔ o = v := by
  simp [pathIn, chainB]

theorem pathIn_concat {fs : List Flight} {o v : String} {q : List Flight} {f : Flight} :
    pathIn fs o (q ++ [f]) v ↔ pathIn fs o q f.origin ∧ f ∈ fs ∧ f.destination = v := by
  simp only [pathIn, chainB_concat, List.forall_mem_append, List.forall_mem_singleton]
  tauto

theorem origin_mem_nodesOf {f : Flight} {fs : List Flight} (h : f ∈ fs) :
    f.origin ∈ nodesOf fs := by
  simp only [nodesOf, List.mem_append, List.mem_map]
  exact Or.inl ⟨f, h, rfl⟩

theorem destination_mem_nodesOf {f : Flight} {fs : List Flight} (h : f ∈ fs) :
    f.destination ∈ nodesOf fs := by
  simp only [nodesOf, List.mem_append, List.mem_map]
  exact Or.inr ⟨f, h, rfl⟩

theorem pathIn_dest_mem {fs : List Flight} {o v : String} {q : List Flight}
    (hq : pathIn fs o q v) (hne : q ≠ []) : v ∈ nodesOf fs := by
  rcases List.eq_nil_or_concat q with rfl | ⟨r, f, rfl⟩
  · exact absurd rfl hne
  · rw [List.concat_eq_append, pathIn_concat] at hq
    exact hq.2.2 ▸ destination_mem_nodesOf hq.2.1

/-! Lemmas about the minimum-cost unvisited node selection. -/

theorem pickMin_none {best : Best} {l : List String} (h : pickMin best l = none) :
    ∀ v ∈ l, best v = none := by
  induction l with
  | nil => intro v hv; cases hv
  | cons a rest ih =>
    intro v hv
    simp only [pickMin] at h
    cases hb : best a with
    | none =>
      simp only [hb] at h
      rcases List.mem_cons.mp hv with rfl | hv'
      · exact hb
      · exact ih h v hv'
    | some dp =>
      obtain ⟨da, pa⟩ := dp
      cases hr : pickMin best rest with
      | none => simp only [hb, hr] at h; cases h
      | some t =>
        obtain ⟨w, dw, pw⟩ := t
        simp only [hb, hr] at h
        by_cases hlt : dw < da
        · rw [if_pos hlt] at h; cases h
        · rw [if_neg hlt] at h; cases h

theorem pickMin_mem {best : Best} {l : List String} {u : String} {du : Nat}
    {pu : List Flight} (h : pickMin best l = some (u, du, pu)) : u ∈ l := by
  induction l with
  | nil => cases h
  | cons a rest ih =>
    simp only [pickMin] at h
    cases hb : best a with
    | none =>
      simp only [hb] at h
      exact List.mem_cons_of_mem a (ih h)
    | some dp =>
      obtain ⟨da, pa⟩ := dp
      cases hr : pickMin best rest with
      | none =>
        simp only [hb, hr] at h
        cases h
        exact List.mem_cons_self _ _
      | some t =>
        obtain ⟨w, dw, pw⟩ := t
        simp only [hb, hr] at h
        by_cases hlt : dw < da
        · rw [if_pos hlt] at h; cases h; exact List.mem_cons_of_mem _ (ih hr)
        · rw [if_neg hlt] at h; cases h; exact List.mem_cons_self _ _

theorem pickMin_best {best : Best} {l : List String} {u : String} {du : Nat}
    {pu : List Flight} (h : pickMin best l = some (u, du, pu)) :
    best u = some (du, pu) := by
  induction l with
  | nil => cases h
  | cons a rest ih =>
    simp only [pickMin] at h
    cases hb : best a with
    | none => simp only [hb] at h; exact ih h
    | some dp =>
      obtain ⟨da, pa⟩ := dp
      cases hr : pickMin best rest with
      | none => simp only [hb, hr] at h; cases h; exact hb
      | some t =>
        obtain ⟨w, dw, pw⟩ := t
        simp only [hb, hr] at h
        by_cases hlt : dw < da
        · rw [if_pos hlt] at h; cases h; exact ih hr
        · rw [if_neg hlt] at h; cases h; exact hb

theorem pickMin_le {best : Best} {l : List String} :
    ∀ {u : String} {du : Nat} {pu : List Flight},
      pickMin best l = some (u, du, pu) →
      ∀ v ∈ l, ∀ c p, best v = some (c, p) → du ≤ c := by
  induction l with
  | nil => intro u du pu h; cases h
  | cons a rest ih =>
    intro u du pu h v hv c p hvc
    simp only [pickMin] at h
    cases hb : best a with
    | none =>
      simp only [hb] at h
      rcases List.mem_cons.mp hv with rfl | hv'
      · rw [hb] at hvc; cases hvc
      · exact ih h v hv' c p hvc
    | some dp =>
      obtain ⟨da, pa⟩ := dp
      cases hr : pickMin best rest with
      | none =>
        simp only [hb, hr] at h
        cases h
        rcases List.mem_cons.mp hv with rfl | hv'
        · rw [hb] at hvc; cases hvc; exact Nat.le_refl _
        · rw [pickMin_none hr v hv'] at hvc; cases hvc
      | some t =>
        obtain ⟨w, dw, pw⟩ := t
        simp only [hb, hr] at h
        by_cases hlt : dw < da
        · rw [if_pos hlt] at h
          cases h
          rcases List.mem_cons.mp hv with rfl | hv'
          · rw [hb] at hvc; cases hvc; exact Nat.le_of_lt hlt
          · exact ih hr v hv' c p hvc
        · rw [if_neg hlt] at h
          cases h
          rcases List.mem_cons.mp hv with rfl | hv'
          · rw [hb] at hvc; cases hvc; exact Nat.le_refl _
          · exact Nat.le_trans (Nat.le_of_not_lt hlt) (ih hr v hv' c p hvc)

/-! Lemmas about edge relaxation. -/

theorem relaxOne_ne {du : Nat} {pu : List Flight} {best : Best} {f : Flight}
    {x : String} (h : x ≠ f.destination) :
    relaxOne du pu best f x = best x := by
  simp [relaxOne, h]

theorem relaxOne_dest_none {du : Nat} {pu : List Flight} {best : Best}
    {f : Flight} (hb : best f.destination = none) :
    relaxOne du pu best f f.destination = some (du + f.cost, pu ++ [f]) := by
  simp [relaxOne, hb]

theorem relaxOne_dest_lt {du : Nat} {pu : List Flight} {best : Best}
    {f : Flight} {dv : Nat} {pv : List Flight}
    (hb : best f.destination = some (dv, pv)) (hlt : du + f.cost < dv) :
    relaxOne du pu best f f.destination = some (du + f.cost, pu ++ [f]) := by
  simp [relaxOne, hb, hlt]

theorem relaxOne_dest_ge {du : Nat} {pu : List Flight} {best : Best}
    {f : Flight} {dv : Nat} {pv : List Flight}
    (hb : best f.destination = some (dv, pv)) (hlt : ¬ du + f.cost < dv) :
    relaxOne du pu best f f.destination = some (dv, pv) := by
  simp [relaxOne, hb, hlt]

theorem relaxOne_le {du : Nat} {pu : List Flight} {best : Best} {f : Flight}
    {x : String} {c : Nat} {p : List Flight} (h : best x = some (c, p)) :
    ∃ c' p', relaxOne du pu best f x = some (c', p') ∧ c' ≤ c := by
  by_cases hx : x = f.destination
  · subst hx
    by_cases hlt : du + f.cost < c
    · exact ⟨du + f.cost, pu ++ [f], relaxOne_dest_lt h hlt, Nat.le_of_lt hlt⟩
    · exact ⟨c, p, relaxOne_dest_ge h hlt, Nat.le_refl _⟩
  · exact ⟨c, p, by rw [relaxOne_ne hx]; exact h, Nat.le_refl _⟩

theorem relaxOne_dest_le (du : Nat) (pu : List Flight) (best : Best) (f : Flight) :
    ∃ c p, relaxOne du pu best f f.destination = some (c, p) ∧ c ≤ du + f.cost := by
  cases hb : best f.destination with
  | none => exact ⟨du + f.cost, pu ++ [f], relaxOne_dest_none hb, Nat.le_refl _⟩
  | some dp =>
    obtain ⟨dv, pv⟩ := dp
    by_cases hlt : du + f.cost < dv
    · exact ⟨du + f.cost, pu ++ [f], relaxOne_dest_lt hb hlt, Nat.le_refl _⟩
    · exact ⟨dv, pv, relaxOne_dest_ge hb hlt, Nat.le_of_not_lt hlt⟩

/-- Soundness of the best-known map: every recorded entry is an actual path
from the origin with its exact cost. -/
def Sound (fs : List Flight) (o : String) (best : Best) : Prop :=
  ∀ v c p, best v = some (c, p) → pathIn fs o p v ∧ routeCost p = c

theorem relaxOne_sound {fs : List Flight} {o u : String} {du : Nat}
    {pu : List Flight} {best : Best} {f : Flight}
    (hS : Sound fs o best) (hpu : pathIn fs o pu u) (hcu : routeCost pu = du)
    (hf : f ∈ fs) (horig : f.origin = u) :
    Sound fs o (relaxOne du pu best f) := by
  have hnew : pathIn fs o (pu ++ [f]) f.destination ∧
      routeCost (pu ++ [f]) = du + f.cost := by
    constructor
    · rw [pathIn_concat]
      exact ⟨horig ▸ hpu, hf, rfl⟩
    · rw [routeCost_concat, hcu]
  intro v c p hv
  by_cases hx : v = f.destination
  · subst hx
    cases hb : best f.destination with
    | none =>
      rw [relaxOne_dest_none hb] at hv
      cases hv
      exact hnew
    | some dp =>
      obtain ⟨dv, pv⟩ := dp
      by_cases hlt : du + f.cost < dv
      · rw [relaxOne_dest_lt hb hlt] at hv; cases hv; exact hnew
      · rw [relaxOne_dest_ge hb hlt] at hv; cases hv; exact hS _ _ _ hb
  · rw [relaxOne_ne hx] at hv
    exact hS _ _ _ hv

/-- A relaxation never touches a node whose recorded best is already minimal
over all paths to it (in particular, a cost-equal relaxation keeps the
existing best). -/
theorem relaxOne_keep {fs : List Flight} {o u w : String} {du : Nat}
    {pu : List Flight} {best : Best} {f : Flight}
    (hw : ∀ q, pathIn fs o q w → ∃ c p, best w = some (c, p) ∧ c ≤ routeCost q)
    (hpu : pathIn fs o pu u) (hcu : routeCost pu = du)
    (hf : f ∈ fs) (horig : f.origin = u) :
    relaxOne du pu best f w = best w := by
  by_cases hx : w = f.destination
  · subst hx
    have hcand : pathIn fs o (pu ++ [f]) f.destination := by
      rw [pathIn_concat]; exact ⟨horig ▸ hpu, hf, rfl⟩
    obtain ⟨c, p, hb, hc⟩ := hw (pu ++ [f]) hcand
    rw [routeCost_concat, hcu] at hc
    rw [relaxOne_dest_ge hb (Nat.not_lt_of_le hc), hb]
  · exact relaxOne_ne hx

theorem relaxAll_sound {fs : List Flight} {o u : String} {du : Nat}
    {pu : List Flight} {edges : List Flight}
    (hpu : pathIn fs o pu u) (hcu : routeCost pu = du)
    (hedges : ∀ f ∈ edges, f ∈ fs ∧ f.origin = u) :
    ∀ {best : Best}, Sound fs o best → Sound fs o (relaxAll du pu best edges) := by
  induction edges with
  | nil => intro best hS; exact hS
  | cons g rest ih =>
    intro best hS
    have hg := hedges g (List.mem_cons_self _ _)
    exact ih (fun f hf => hedges f (List.mem_cons_of_mem _ hf))
      (relaxOne_sound hS hpu hcu hg.1 hg.2)

theorem relaxAll_le {du : Nat} {pu : List Flight} {edges : List Flight} :
    ∀ {best : Best} {x : String} {c : Nat} {p : List Flight},
      best x = some (c, p) →
      ∃ c' p', relaxAll du pu best edges x = some (c', p') ∧ c' ≤ c := by
  induction edges with
  | nil => intro best x c p h; exact ⟨c, p, h, Nat.le_refl _⟩
  | cons g rest ih =>
    intro best x c p h
    obtain ⟨c1, p1, h1, hc1⟩ := @relaxOne_le du pu best g x c p h
    obtain ⟨c2, p2, h2, hc2⟩ := ih h1
    exact ⟨c2, p2, h2, Nat.le_trans hc2 hc1⟩

theorem relaxAll_dest_le {du : Nat} {pu : List Flight} {edges : List Flight} :
    ∀ {best : Best} {f : Flight}, f ∈ edges →
      ∃ c p, relaxAll du pu best edges f.destination = some (c, p) ∧
        c ≤ du + f.cost := by
  induction edges with
  | nil => intro best f h; cases h
  | cons g rest ih =>
    intro best f h
    rcases List.mem_cons.mp h with rfl | h'
    · obtain ⟨c1, p1, h1, hc1⟩ := relaxOne_dest_le du pu best f
      obtain ⟨c2, p2, h2, hc2⟩ := @relaxAll_le du pu rest _ _ _ _ h1
      exact ⟨c2, p2, h2, Nat.le_trans hc2 hc1⟩
    · exact ih h'

theorem relaxAll_keep {fs : List Flight} {o u w : String} {du : Nat}
    {pu : List Flight} {edges : List Flight}
    (hpu : pathIn fs o pu u) (hcu : routeCost pu = du)
    (hedges : ∀ f ∈ edges, f ∈ fs ∧ f.origin = u) :
    ∀ {best : Best},
      (∀ q, pathIn fs o q w → ∃ c p, best w = some (c, p) ∧ c ≤ routeCost q) →
      relaxAll du pu best edges w = best w := by
  induction edges with
  | nil => intro best _; rfl
  | cons g rest ih =>
    intro best hw
    have hg := hedges g (List.mem_cons_self _ _)
    have hkeep : relaxOne du pu best g w = best w :=
      relaxOne_keep hw hpu hcu hg.1 hg.2
    have hrest := @ih (fun f hf => hedges f (List.mem_cons_of_mem _ hf))
      (relaxOne du pu best g) (fun q hq => hkeep ▸ hw q hq)
    rw [relaxAll] at hrest ⊢
    rw [List.foldl_cons, hrest, hkeep]

/-! The Dijkstra loop invariant and its preservation. -/

/-- Finalized nodes carry a cost minimal over every path reaching them (and
a node with no recorded best has no path at all). -/
def OptOut (fs : List Flight) (o : String) (unvisited : List String)
    (best : Best) : Prop :=
  ∀ v, v ∉ unvisited → ∀ q, pathIn fs o q v →
    ∃ c p, best v = some (c, p) ∧ c ≤ routeCost q

/-- Every outgoing edge of a finalized node has been relaxed. -/
def RelaxedOut (fs : List Flight) (unvisited : List String) (best : Best) : Prop :=
  ∀ u, u ∉ unvisited → ∀ cu pu, best u = some (cu, pu) →
    ∀ f ∈ fs, f.origin = u →
      ∃ cv pv, best f.destination = some (cv, pv) ∧ cv ≤ cu + f.cost

/-- The loop invariant: soundness, the pinned origin entry, optimality of
finalized nodes, and relaxedness of finalized nodes. -/
def DijkInv (fs : List Flight) (o : String) (unvisited : List String)
    (best : Best) : Prop :=
  Sound fs o best ∧ best o = some (0, []) ∧ OptOut fs o unvisited best ∧
    RelaxedOut fs unvisited best

theorem initBest_self (o : String) : initBest o o = some (0, []) := by
  simp [initBest]

theorem initBest_ne {o v : String} (h : v ≠ o) : initBest o v = none := by
  simp [initBest, h]

theorem inv_init (fs : List Flight) (o : String) :
    DijkInv fs o (nodesOf fs) (initBest o) := by
  refine ⟨?_, initBest_self o, ?_, ?_⟩
  · intro v c p hv
    by_cases hvo : v = o
    · subst hvo
      rw [initBest_self] at hv
      cases hv
      exact ⟨pathIn_nil.mpr rfl, rfl⟩
    · rw [initBest_ne hvo] at hv
      cases hv
  · intro v hv q hq
    by_cases hvo : v = o
    · subst hvo
      exact ⟨0, [], initBest_self _, Nat.zero_le _⟩
    · exfalso
      rcases List.eq_nil_or_concat q with rfl | ⟨r, f, rfl⟩
      · exact hvo (pathIn_nil.mp hq).symm
      · exact hv (pathIn_dest_mem hq (by simp))
  · intro w hw cw pw hbw f hfmem horig
    by_cases hwo : w = o
    · subst hwo
      exact absurd (horig ▸ origin_mem_nodesOf hfmem) hw
    · rw [initBest_ne hwo] at hbw
      cases hbw

/-- Walking any path: its endpoint either carries a recorded best no worse
than the path, or the path costs at least as much as the minimum just
picked from the unvisited nodes. -/
theorem pick_path_bound {fs : List Flight} {o : String} {unvisited : List String}
    {best : Best} (hI : DijkInv fs o unvisited best) {u : String} {du : Nat}
    {pu : List Flight} (hp : pickMin best unvisited = some (u, du, pu)) :
    ∀ q v, pathIn fs o q v →
      (∃ c p, best v = some (c, p) ∧ c ≤ routeCost q) ∨ du ≤ routeCost q := by
  obtain ⟨hS, hO, hOpt, hR⟩ := hI
  intro q
  induction q using List.reverseRecOn with
  | nil =>
    intro v hv
    rw [pathIn_nil] at hv
    subst hv
    exact Or.inl ⟨0, [], hO, Nat.zero_le _⟩
  | append_singleton q f ih =>
    intro v hv
    rw [pathIn_concat] at hv
    obtain ⟨hq, hfmem, hfd⟩ := hv
    rcases ih f.origin hq with ⟨cw, pw, hbw, hcw⟩ | hdu
    · by_cases hwmem : f.origin ∈ unvisited
      · refine Or.inr ?_
        have h1 := pickMin_le hp f.origin hwmem cw pw hbw
        rw [routeCost_concat]
        exact Nat.le_trans h1 (Nat.le_trans hcw (Nat.le_add_right _ _))
      · obtain ⟨cv, pv, hbv, hcv⟩ := hR f.origin hwmem cw pw hbw f hfmem rfl
        subst hfd
        refine Or.inl ⟨cv, pv, hbv, ?_⟩
        rw [routeCost_concat]
        omega
    · refine Or.inr ?_
      rw [routeCost_concat]
      omega

/-- The node picked by `pickMin` is optimal: no path to it is cheaper than
its recorded best-known cost. -/
theorem pick_optimal {fs : List Flight} {o : String} {unvisited : List String}
    {best : Best} (hI : DijkInv fs o unvisited best) {u : String} {du : Nat}
    {pu : List Flight} (hp : pickMin best unvisited = some (u, du, pu)) :
    ∀ q, pathIn fs o q u → du ≤ routeCost q := by
  intro q hq
  rcases pick_path_bound hI hp q u hq with ⟨c, p, hb, hc⟩ | h
  · rw [pickMin_best hp] at hb
    cases hb
    exact hc
  · exact h

/-- One loop iteration preserves the invariant. -/
theorem inv_step {fs : List Flight} {o : String} {unvisited : List String}
    {best : Best} (hI : DijkInv fs o unvisited best) {u : String} {du : Nat}
    {pu : List Flight} (hp : pickMin best unvisited = some (u, du, pu)) :
    DijkInv fs o (unvisited.erase u) (relaxAll du pu best (build fs u)) := by
  obtain ⟨hS, hO, hOpt, hR⟩ := hI
  have hbu : best u = some (du, pu) := pickMin_best hp
  obtain ⟨hpu, hcu⟩ := hS u du pu hbu
  have hedges : ∀ f ∈ build fs u, f ∈ fs ∧ f.origin = u := by
    intro f hf
    simpa only [build, List.mem_filter, decide_eq_true_eq] using hf
  have hedgesR : ∀ f ∈ fs, f.origin = u → f ∈ build fs u := by
    intro f hf horig
    simp only [build, List.mem_filter, decide_eq_true_eq]
    exact ⟨hf, horig⟩
  have hOptU : ∀ q, pathIn fs o q u →
      ∃ c p, best u = some (c, p) ∧ c ≤ routeCost q :=
    fun q hq => ⟨du, pu, hbu, pick_optimal ⟨hS, hO, hOpt, hR⟩ hp q hq⟩
  have hKeepU : relaxAll du pu best (build fs u) u = best u :=
    relaxAll_keep hpu hcu hedges hOptU
  have hKeepOut : ∀ w, w ∉ unvisited →
      relaxAll du pu best (build fs u) w = best w :=
    fun w hw => relaxAll_keep hpu hcu hedges (hOpt w hw)
  have hKeepO : relaxAll du pu best (build fs u) o = best o :=
    relaxAll_keep hpu hcu hedges (fun q hq => ⟨0, [], hO, Nat.zero_le _⟩)
  refine ⟨relaxAll_sound hpu hcu hedges hS, ?_, ?_, ?_⟩
  · rw [hKeepO]; exact hO
  · intro v hv q hq
    by_cases hvu : v ∈ unvisited
    · have hveq : v = u := by
        by_contra hne
        exact hv ((List.mem_erase_of_ne hne).mpr hvu)
      subst hveq
      rw [hKeepU]
      exact hOptU q hq
    · rw [hKeepOut v hvu]
      exact hOpt v hvu q hq
  · intro w hw cw pw hbw f hfmem horig
    by_cases hwu : w ∈ unvisited
    · have hweq : w = u := by
        by_contra hne
        exact hw ((List.mem_erase_of_ne hne).mpr hwu)
      subst hweq
      rw [hKeepU, hbu] at hbw
      cases hbw
      exact @relaxAll_dest_le du pu (build fs w) best f (hedgesR f hfmem horig)
    · rw [hKeepOut w hwu] at hbw
      obtain ⟨cv, pv, hbv, hcv⟩ := hR w hwu cw pw hbw f hfmem horig
      obtain ⟨cv', pv', hbv', hcv'⟩ := @relaxAll_le du pu (build fs u) best _ _ _ hbv
      exact ⟨cv', pv', hbv', Nat.le_trans hcv' hcv⟩

/-- When every unvisited node has no recorded best, the recorded map is
complete and optimal for every reachable node. -/
theorem none_final {fs : List Flight} {o : String} {unvisited : List String}
    {best : Best} (hI : DijkInv fs o unvisited best)
    (hall : ∀ v ∈ unvisited, best v = none) :
    ∀ q v, pathIn fs o q v →
      ∃ c p, best v = some (c, p) ∧ c ≤ routeCost q := by
  obtain ⟨hS, hO, hOpt, hR⟩ := hI
  intro q
  induction q using List.reverseRecOn with
  | nil =>
    intro v hv
    rw [pathIn_nil] at hv
    subst hv
    exact ⟨0, [], hO, Nat.zero_le _⟩
  | append_singleton q f ih =>
    intro v hv
    rw [pathIn_concat] at hv
    obtain ⟨hq, hfmem, hfd⟩ := hv
    obtain ⟨cw, pw, hbw, hcw⟩ := ih f.origin hq
    have hwout : f.origin ∉ unvisited := by
      intro hmem
      rw [hall f.origin hmem] at hbw
      cases hbw
    obtain ⟨cv, pv, hbv, hcv⟩ := hR f.origin hwout cw pw hbw f hfmem rfl
    subst hfd
    refine ⟨cv, pv, hbv, ?_⟩
    rw [routeCost_concat]
    omega

/-- Correctness of the Dijkstra loop: the final map is sound, and for every
path to any node the final map records an entry at that node no more
expensive than the path. -/
theorem dijkstraLoop_correct {fs : List Flight} {o : String} :
    ∀ (fuel : Nat) (unvisited : List String) (best : Best),
      unvisited.length ≤ fuel → DijkInv fs o unvisited best →
      Sound fs o (dijkstraLoop (build fs) fuel unvisited best) ∧
        ∀ q v, pathIn fs o q v →
          ∃ c p, dijkstraLoop (build fs) fuel unvisited best v = some (c, p) ∧
            c ≤ routeCost q := by
  intro fuel
  induction fuel with
  | zero =>
    intro unvisited best hlen hI
    have hnil : unvisited = [] := List.length_eq_zero.mp (Nat.le_zero.mp hlen)
    subst hnil
    simp only [dijkstraLoop]
    exact ⟨hI.1, none_final hI (fun v hv => absurd hv (List.not_mem_nil v))⟩
  | succ fuel ih =>
    intro unvisited best hlen hI
    cases hp : pickMin best unvisited with
    | none =>
      simp only [dijkstraLoop, hp]
      exact ⟨hI.1, none_final hI (pickMin_none hp)⟩
    | some t =>
      obtain ⟨u, du, pu⟩ := t
      simp only [dijkstraLoop, hp]
      apply ih
      · have hu := pickMin_mem hp
        have := List.length_erase_of_mem hu
        omega
      · exact inv_step hI hp

/-! Correctness of the solver and the facade. -/

/-- Whatever route the solver returns is a genuine non-degenerate path and
is minimal among all paths of the snapshot. -/
theorem solve_eq_some {fs : List Flight} {o d : String} {p : List Flight}
    {c : Nat} (h : solve fs o d = some (p, c)) :
    o ≠ d ∧ p ≠ [] ∧ pathIn fs o p d ∧ routeCost p = c ∧
      ∀ q, pathIn fs o q d → c ≤ routeCost q := by
  by_cases hod : o = d
  · rw [solve, if_pos hod] at h; cases h
  · rw [solve, if_neg hod] at h
    obtain ⟨hS, hOpt⟩ := dijkstraLoop_correct (nodesOf fs).length (nodesOf fs)
      (initBest o) (Nat.le_refl _) (inv_init fs o)
    cases hd : dijkstraLoop (build fs) (nodesOf fs).length (nodesOf fs)
        (initBest o) d with
    | none => rw [hd] at h; cases h
    | some cp =>
      obtain ⟨c', p'⟩ := cp
      simp only [hd] at h
      cases h
      obtain ⟨hpath, hcost⟩ := hS d _ _ hd
      have hne : p ≠ [] := by
        intro hnil
        subst hnil
        exact hod (pathIn_nil.mp hpath)
      refine ⟨hod, hne, hpath, hcost, ?_⟩
      intro q hq
      obtain ⟨c0, p0, hd0, hc0⟩ := hOpt q d hq
      rw [hd] at hd0
      cases hd0
      exact hc0

/-- When the solver returns nothing on a non-degenerate query, no path of
the snapshot connects the two airports. -/
theorem solve_eq_none {fs : List Flight} {o d : String}
    (h : solve fs o d = none) (hod : o ≠ d) : ∀ q, ¬ pathIn fs o q d := by
  intro q hq
  rw [solve, if_neg hod] at h
  obtain ⟨hS, hOpt⟩ := dijkstraLoop_correct (nodesOf fs).length (nodesOf fs)
    (initBest o) (Nat.le_refl _) (inv_init fs o)
  obtain ⟨c0, p0, hd0, hc0⟩ := hOpt q d hq
  simp only [hd0] at h
  cases h

theorem mem_listActiveFlights {f : Flight} {fs : List Flight} :
    f ∈ listActiveFlights fs ↔ f ∈ fs ∧ f.deleted_at = none := by
  simp [listActiveFlights]

theorem validPath_iff {fs : List Flight} {o d : String} {p : List Flight} :
    validPath fs o d p ↔ p ≠ [] ∧ pathIn (listActiveFlights fs) o p d := by
  constructor
  · rintro ⟨hne, hmem, hch⟩
    exact ⟨hne, hch, fun f hf => mem_listActiveFlights.mpr (hmem f hf)⟩
  · rintro ⟨hne, hch, hmem⟩
    exact ⟨hne, fun f hf => mem_listActiveFlights.mp (hmem f hf), hch⟩

/-- Any returned route is a valid route with its exact summed cost, minimal
among all valid routes of the query. -/
theorem find_cheapest_route_some {fs : List Flight} {o d : String}
    {p : List Flight} {c : Nat}
    (h : Flight.find_cheapest_route fs o d = some (p, c)) :
    validPath fs o d p ∧ routeCost p = c ∧
      ∀ q, validPath fs o d q → c ≤ routeCost q := by
  rw [Flight.find_cheapest_route] at h
  obtain ⟨hod, hne, hpath, hcost, hmin⟩ := solve_eq_some h
  refine ⟨validPath_iff.mpr ⟨hne, hpath⟩, hcost, ?_⟩
  intro q hq
  exact hmin q (validPath_iff.mp hq).2

/-- A NotFound outcome on a non-degenerate query means no valid route
exists at all. -/
theorem find_cheapest_route_none {fs : List Flight} {o d : String}
    (h : Flight.find_cheapest_route fs o d = none) (hod : o ≠ d) :
    ∀ q, ¬ validPath fs o d q := by
  intro q hq
  rw [Flight.find_cheapest_route] at h
  exact solve_eq_none h hod q (validPath_iff.mp hq).2

/-- A degenerate query (origin equals destination) is always NotFound. -/
theorem find_cheapest_route_self (fs : List Flight) (o : String) :
    Flight.find_cheapest_route fs o o = none := by
  rw [Flight.find_cheapest_route, solve, if_pos rfl]

/-! Positional form of the chain property, for the contiguity claim. -/

theorem chainB_head {o d : String} {p : List Flight} (hc : chainB o p d = true)
    (hne : p ≠ []) : (p.head hne).origin = o := by
  cases p with
  | nil => exact absurd rfl hne
  | cons f rest =>
    simp only [chainB, Bool.and_eq_true, beq_iff_eq] at hc
    exact hc.1

theorem chainB_getLast {o d : String} {p : List Flight} (hc : chainB o p d = true)
    (hne : p ≠ []) : (p.getLast hne).destination = d := by
  rcases List.eq_nil_or_concat p with rfl | ⟨r, f, rfl⟩
  · exact absurd rfl hne
  · have hc' : chainB o (r ++ [f]) d = true := by
      rw [List.concat_eq_append] at hc
      exact hc
    have hlast : (r.concat f).getLast hne = f := List.getLast_concat' r
    rw [hlast]
    exact (chainB_concat.mp hc').2

theorem chainB_adjacent {d : String} {p : List Flight} :
    ∀ {o : String}, chainB o p d = true →
      ∀ i (h : i + 1 < p.length),
        (p.get ⟨i, Nat.lt_of_succ_lt h⟩).destination =
          (p.get ⟨i + 1, h⟩).origin := by
  induction p with
  | nil =>
    intro o hc i h
    exact absurd h (by simp)
  | cons f rest ih =>
    intro o hc i h
    simp only [chainB, Bool.and_eq_true, beq_iff_eq] at hc
    cases i with
    | zero =>
      cases rest with
      | nil => simp at h
      | cons g rest2 =>
        have hc2 := hc.2
        simp only [chainB, Bool.and_eq_true, beq_iff_eq] at hc2
        exact hc2.1.symm
    | succ j =>
      exact ih hc.2 j (Nat.lt_of_succ_lt_succ h)

/-! Concrete scenario data from the design document (spec section 8). -/

def fAB : Flight := ⟨"f-ab", "AB", "A", "B", 100, none, none⟩

def fBC : Flight := ⟨"f-bc", "BC", "B", "C", 50, none, none⟩

def fAC : Flight := ⟨"f-ac", "AC", "A", "C", 200, none, none⟩

def fAB1 : Flight := ⟨"1", "AB-one", "A", "B", 100, none, none⟩

def fAB2 : Flight := ⟨"2", "AB-two", "A", "B", 80, none, none⟩

def gAB : Flight := ⟨"g-ab", "GAB", "A", "B", 10, none, none⟩

def gBA : Flight := ⟨"g-ba", "GBA", "B", "A", 10, none, none⟩

def hABdel : Flight := ⟨"h-ab", "HAB", "A", "B", 10, none, some "2024-01-01T00:00:00"⟩

def pDel : Passenger := ⟨"p-1", "Dana", "dana@example.com", false, some "2024-01-01T00:00:00"⟩

def storeW : Store := ⟨[hABdel], [pDel]⟩

def bestW : Best := fun x => if x = "B" then some (100, [fAB]) else none

/-! The claims. -/

/-- C1: whenever `find_cheapest_route` returns a route for a query, that
route is a valid origin-to-destination path in the snapshot and no other
valid path from origin to destination has strictly smaller total cost; in
particular, for flights A→B cost 100, B→C cost 50, A→C cost 200 the query
(A, C) returns the two-leg route with total cost 150. -/
theorem claim_C1 :
    (∀ fs o d p c, Flight.find_cheapest_route fs o d = some (p, c) →
      validPath fs o d p ∧ ∀ q, validPath fs o d q → ¬ routeCost q < c) ∧
    Flight.find_cheapest_route [fAB, fBC, fAC] "A" "C" =
      some ([fAB, fBC], 150) := by
  constructor
  · intro fs o d p c h
    obtain ⟨hvp, hcost, hmin⟩ := find_cheapest_route_some h
    exact ⟨hvp, fun q hq => Nat.not_lt.mpr (hmin q hq)⟩
  · decide

theorem claim_C1_witness :
    validPath [fAB, fBC, fAC] "A" "C" [fAB, fBC] ∧
      ∀ q, validPath [fAB, fBC, fAC] "A" "C" q → ¬ routeCost q < 150 :=
  claim_C1.1 [fAB, fBC, fAC] "A" "C" [fAB, fBC] 150 (by decide)

/-- C2: every edge of a returned route is present and active in the
snapshot, consecutive edges are contiguous, the first edge leaves the
queried origin and the last edge arrives at the queried destination. -/
theorem claim_C2 : ∀ fs o d p c,
    Flight.find_cheapest_route fs o d = some (p, c) →
      (∀ f ∈ p, f ∈ fs ∧ f.deleted_at = none) ∧
      (∀ i (h : i + 1 < p.length),
        (p.get ⟨i, Nat.lt_of_succ_lt h⟩).destination =
          (p.get ⟨i + 1, h⟩).origin) ∧
      ∀ hne : p ≠ [], (p.head hne).origin = o ∧ (p.getLast hne).destination = d := by
  intro fs o d p c h
  obtain ⟨hvp, hcost, hmin⟩ := find_cheapest_route_some h
  obtain ⟨hne, hmem, hch⟩ := hvp
  exact ⟨hmem, chainB_adjacent hch,
    fun hne2 => ⟨chainB_head hch hne2, chainB_getLast hch hne2⟩⟩

theorem claim_C2_witness :
    (∀ f ∈ ([fAB, fBC] : List Flight),
        f ∈ [fAB, fBC, fAC] ∧ f.deleted_at = none) ∧
    (∀ i (h : i + 1 < ([fAB, fBC] : List Flight).length),
      (([fAB, fBC] : List Flight).get ⟨i, Nat.lt_of_succ_lt h⟩).destination =
        (([fAB, fBC] : List Flight).get ⟨i + 1, h⟩).origin) ∧
    ∀ hne : ([fAB, fBC] : List Flight) ≠ [],
      (([fAB, fBC] : List Flight).head hne).origin = "A" ∧
      (([fAB, fBC] : List Flight).getLast hne).destination = "C" :=
  claim_C2 [fAB, fBC, fAC] "A" "C" [fAB, fBC] 150 (by decide)

/-- C3: a query whose origin equals its destination returns NotFound on
every snapshot (even cyclic ones such as A→B cost 10, B→A cost 10), and a
zero-flight, zero-cost route is never returned. -/
theorem claim_C3 :
    (∀ fs o, Flight.find_cheapest_route fs o o = none) ∧
    (∀ fs o d p c, Flight.find_cheapest_route fs o d = some (p, c) → p ≠ []) ∧
    Flight.find_cheapest_route [gAB, gBA] "A" "A" = none ∧
    CheapestRouteResource.get (Except.ok [gAB, gBA]) (some "A") (some "A") =
      ApiResult.notFound "No route found between the specified points." := by
  refine ⟨find_cheapest_route_self, ?_, by decide, by decide⟩
  intro fs o d p c h
  exact (find_cheapest_route_some h).1.1

theorem claim_C3_witness : ([fAB, fBC] : List Flight) ≠ [] :=
  claim_C3.2.1 [fAB, fBC, fAC] "A" "C" [fAB, fBC] 150 (by decide)

/-- C4: a request with a missing or empty origin or destination yields the
400 validation response (never the 404 NotFound one), and the outcome does
not depend on the Ledger at all — the builder and solver are not consulted. -/
theorem claim_C4 : ∀ ledger ledger' origin destination,
    (isBlank origin || isBlank destination) = true →
      CheapestRouteResource.get ledger origin destination =
        ApiResult.validationError "Both origin and destination are required." ∧
      (∀ m, CheapestRouteResource.get ledger origin destination ≠
        ApiResult.notFound m) ∧
      CheapestRouteResource.get ledger origin destination =
        CheapestRouteResource.get ledger' origin destination := by
  intro ledger ledger' origin destination hblank
  have h : ∀ l : Except String (List Flight),
      CheapestRouteResource.get l origin destination =
        ApiResult.validationError "Both origin and destination are required." := by
    intro l
    rw [CheapestRouteResource.get.eq_def, if_pos hblank]
  refine ⟨h ledger, ?_, (h ledger).trans (h ledger').symm⟩
  intro m hcontra
  rw [h ledger] at hcontra
  cases hcontra

theorem claim_C4_witness :
    CheapestRouteResource.get (Except.ok []) none (some "C") =
      ApiResult.validationError "Both origin and destination are required." ∧
    (∀ m, CheapestRouteResource.get (Except.ok []) none (some "C") ≠
      ApiResult.notFound m) ∧
    CheapestRouteResource.get (Except.ok []) none (some "C") =
      CheapestRouteResource.get (Except.error "down") none (some "C") :=
  claim_C4 (Except.ok []) (Except.error "down") none (some "C") (by decide)

/-- C5: on a well-formed query, a Ledger failure surfaces as the 500
infrastructure response — never as 404 NotFound and never as 400
ValidationError; and when the solver finds no path, the outcome is the 404
NotFound response, a normal outcome distinct from the validation and
infrastructure ones. -/
theorem claim_C5 : ∀ (e : String) (fs : List Flight) (o d : Option String),
    isBlank o = false → isBlank d = false →
      (CheapestRouteResource.get (Except.error e) o d =
          ApiResult.serverError ("An unexpected error occurred: " ++ e) ∧
        ∀ m, CheapestRouteResource.get (Except.error e) o d ≠
            ApiResult.notFound m ∧
          CheapestRouteResource.get (Except.error e) o d ≠
            ApiResult.validationError m) ∧
      (Flight.find_cheapest_route fs (o.getD "") (d.getD "") = none →
        CheapestRouteResource.get (Except.ok fs) o d =
          ApiResult.notFound "No route found between the specified points." ∧
        ∀ m, CheapestRouteResource.get (Except.ok fs) o d ≠
            ApiResult.validationError m ∧
          CheapestRouteResource.get (Except.ok fs) o d ≠
            ApiResult.serverError m) := by
  intro e fs o d ho hd
  have hcond : ¬ ((isBlank o || isBlank d) = true) := by
    rw [ho, hd]
    exact Bool.false_ne_true
  have herr : CheapestRouteResource.get (Except.error e) o d =
      ApiResult.serverError ("An unexpected error occurred: " ++ e) := by
    rw [CheapestRouteResource.get.eq_def, if_neg hcond]
  constructor
  · refine ⟨herr, fun m => ⟨?_, ?_⟩⟩
    · intro hcontra
      rw [herr] at hcontra
      cases hcontra
    · intro hcontra
      rw [herr] at hcontra
      cases hcontra
  · intro hfind
    have hok : CheapestRouteResource.get (Except.ok fs) o d =
        ApiResult.notFound "No route found between the specified points." := by
      rw [CheapestRouteResource.get.eq_def, if_neg hcond]
      simp only [hfind]
    refine ⟨hok, fun m => ⟨?_, ?_⟩⟩
    · intro hcontra
      rw [hok] at hcontra
      cases hcontra
    · intro hcontra
      rw [hok] at hcontra
      cases hcontra

theorem claim_C5_witness :
    CheapestRouteResource.get (Except.error "boom") (some "A") (some "B") =
      ApiResult.serverError ("An unexpected error occurred: " ++ "boom") ∧
    CheapestRouteResource.get (Except.ok [gAB]) (some "A") (some "Z") =
      ApiResult.notFound "No route found between the specified points." :=
  ⟨(claim_C5 "boom" [gAB] (some "A") (some "B") (by decide) (by decide)).1.1,
    ((claim_C5 "boom" [gAB] (some "A") (some "Z") (by decide) (by decide)).2
      (by decide)).1⟩

/-- C6: the returned total cost is exactly the sum of the returned route's
edge costs, both at the facade and in the 200 response of the endpoint. -/
theorem claim_C6 :
    (∀ fs o d p c, Flight.find_cheapest_route fs o d = some (p, c) →
      c = routeCost p) ∧
    ∀ ledger o d route tc,
      CheapestRouteResource.get ledger o d = ApiResult.ok route tc →
        tc = routeCost route := by
  have hfacade : ∀ fs o d p c,
      Flight.find_cheapest_route fs o d = some (p, c) → c = routeCost p :=
    fun fs o d p c h => ((find_cheapest_route_some h).2.1).symm
  refine ⟨hfacade, ?_⟩
  intro ledger o d route tc h
  rw [CheapestRouteResource.get.eq_def] at h
  by_cases hb : (isBlank o || isBlank d) = true
  · rw [if_pos hb] at h
    cases h
  · rw [if_neg hb] at h
    cases ledger with
    | error e => cases h
    | ok fs =>
      cases hf : Flight.find_cheapest_route fs (o.getD "") (d.getD "") with
      | none => simp only [hf] at h; cases h
      | some cp =>
        obtain ⟨p, c⟩ := cp
        simp only [hf] at h
        cases h
        exact hfacade fs (o.getD "") (d.getD "") _ _ hf

theorem claim_C6_witness : (150 : Nat) = routeCost [fAB, fBC] :=
  claim_C6.1 [fAB, fBC, fAC] "A" "C" [fAB, fBC] 150 (by decide)

/-- C7: the solver is deterministic — the same snapshot and query always
produce the identical route — and a cost-equal relaxation never replaces
an existing best entry (first-discovered wins). -/
theorem claim_C7 :
    (∀ fs o d, Flight.find_cheapest_route fs o d =
      Flight.find_cheapest_route fs o d) ∧
    ∀ du pu (best : Best) f dv pv, best f.destination = some (dv, pv) →
      du + f.cost = dv →
        relaxOne du pu best f f.destination = some (dv, pv) := by
  refine ⟨fun fs o d => rfl, ?_⟩
  intro du pu best f dv pv hb heq
  exact relaxOne_dest_ge hb (by omega)

theorem claim_C7_witness :
    relaxOne 0 [] bestW fAB fAB.destination = some (100, [fAB]) :=
  claim_C7.2 0 [] bestW fAB 100 [fAB] (by decide) (by decide)

/-- C8: the Graph Builder retains every parallel edge between the same
origin/destination pair, and the solver considers each independently,
returning the cheaper one: for two A→B flights of costs 100 and 80 the
query (A, B) returns the single cost-80 edge. -/
theorem claim_C8 :
    (∀ fs u f, f ∈ fs → f.origin = u → f ∈ build fs u) ∧
    build [fAB1, fAB2] "A" = [fAB1, fAB2] ∧
    Flight.find_cheapest_route [fAB1, fAB2] "A" "B" = some ([fAB2], 80) := by
  refine ⟨?_, by decide, by decide⟩
  intro fs u f hf horig
  simp only [build, List.mem_filter, decide_eq_true_eq]
  exact ⟨hf, horig⟩

theorem claim_C8_witness : fAB2 ∈ build [fAB1, fAB2] "A" :=
  claim_C8.1 [fAB1, fAB2] "A" fAB2 (by decide) (by decide)

/-- C9: soft-deleted flights never contribute edges: a flight with a
non-null `deleted_at` is excluded from the active snapshot, every returned
route consists of active flights only, and when the only A→B flight is
soft-deleted the query (A, B) is NotFound. -/
theorem claim_C9 :
    (∀ fs (f : Flight), f.deleted_at ≠ none → f ∉ listActiveFlights fs) ∧
    (∀ fs o d p c, Flight.find_cheapest_route fs o d = some (p, c) →
      ∀ f ∈ p, f.deleted_at = none) ∧
    Flight.find_cheapest_route [hABdel] "A" "B" = none ∧
    CheapestRouteResource.get (Except.ok [hABdel]) (some "A") (some "B") =
      ApiResult.notFound "No route found between the specified points." := by
  refine ⟨?_, ?_, by decide, by decide⟩
  · intro fs f hdel hmem
    exact hdel (mem_listActiveFlights.mp hmem).2
  · intro fs o d p c h f hf
    exact ((find_cheapest_route_some h).1.2.1 f hf).2

theorem claim_C9_witness : hABdel ∉ listActiveFlights [hABdel] :=
  claim_C9.1 [hABdel] hABdel (by decide)

/-- C10: listing flights returns every stored flight — no `deleted_at`
filter is applied, so soft-deleted flights still appear — whereas listing
passengers keeps exactly the passengers whose `deleted_at` is null. -/
theorem claim_C10 : ∀ s : Store,
    FlightResource.listFlights s = s.flights ∧
    (∀ f ∈ s.flights, f ∈ FlightResource.listFlights s) ∧
    ∀ p, p ∈ PassengerResource.listPassengers s ↔
      p ∈ s.passengers ∧ p.deleted_at = none := by
  intro s
  refine ⟨rfl, fun f hf => hf, ?_⟩
  intro p
  simp [PassengerResource.listPassengers]

theorem claim_C10_witness :
    hABdel ∈ FlightResource.listFlights storeW ∧
      pDel ∉ PassengerResource.listPassengers storeW := by
  constructor
  · exact (claim_C10 storeW).2.1 hABdel (by decide)
  · intro hmem
    have hm := ((claim_C10 storeW).2.2 pDel).mp hmem
    exact absurd hm.2 (by decide)
